import Mathlib

/-!
Verification development for the diver-localization particle filter
(`particle_filter.py`, `geo.py`).

The Python code is shallowly embedded: real (float) arithmetic is modelled
over `ℝ` (or, for the purely order-field arithmetic of the resampler, over an
arbitrary linear ordered field, so the same definition can be evaluated over
`ℚ` at concrete inputs), random draws (`random.random()`, `random.gauss`)
become explicit parameters, in-place mutation becomes state passing, and a
call that raises (`ZeroDivisionError`, `max([])`) returns `none`.

The `while` loop of `resample_particles` is embedded with an explicit fuel
parameter: `spin fuel` runs at most `fuel` iterations of the loop body and
returns `none` when the guard is still true after `fuel` iterations, so
termination of the Python loop is the statement that some fuel returns `some`.

Python object semantics for particle lists: a Python list stores references,
so a particle population is modelled as a list of heap addresses (`List ℕ`)
together with a heap (`List Particle`); `resample_particles` is polymorphic in
the element type exactly as the Python function is generic in what the list
holds, and appending `old_particles[index]` appends the address unchanged.
-/

namespace trig

/-- Modelled from the spec: the `trig` module imported by `particle_filter.py`
is not part of the sources; per the spec it provides degree-argument
trigonometry. `sind x` is the sine of `x` degrees. -/
noncomputable def sind (x : ℝ) : ℝ := Real.sin (x * Real.pi / 180)

/-- Modelled from the spec: cosine of `x` degrees (see `trig.sind`). -/
noncomputable def cosd (x : ℝ) : ℝ := Real.cos (x * Real.pi / 180)

/-- Modelled from the spec: the two-argument arctangent with the quadrant
conventions of the C/Python `atan2`, in radians; `atan2 0 0 = 0`. -/
noncomputable def atan2 (y x : ℝ) : ℝ :=
  if 0 < x then Real.arctan (y / x)
  else if x < 0 then
    (if 0 ≤ y then Real.arctan (y / x) + Real.pi else Real.arctan (y / x) - Real.pi)
  else
    (if 0 < y then Real.pi / 2 else if y < 0 then -(Real.pi / 2) else 0)

/-- Modelled from the spec: two-argument arctangent returning degrees; the
source comments document its range as `[-180.0, +180.0]`. -/
noncomputable def atan2d (y x : ℝ) : ℝ := atan2 y x * 180 / Real.pi

end trig

/-- Python's `%` on floats with a positive modulus: floor-based remainder,
used by `geo.course` as `... % 360.0`. -/
noncomputable def fmod (x m : ℝ) : ℝ := x - m * ⌊x / m⌋

/-- Python's `math.radians`. -/
noncomputable def radians (x : ℝ) : ℝ := x * Real.pi / 180

namespace geo

/-- `EARTH_RADIUS` constant of `geo.py`. -/
noncomputable def EARTH_RADIUS : ℝ := 6372797.560856

/-- `geo.distance`: haversine distance in meters between two lat/lon points. -/
noncomputable def distance (lat1 lon1 lat2 lon2 : ℝ) : ℝ :=
  let lat_arc := radians (lat1 - lat2)
  let lon_arc := radians (lon1 - lon2)
  let latH := Real.sin (lat_arc * 0.5) ^ 2
  let lonH := Real.sin (lon_arc * 0.5) ^ 2
  let temp := trig.cosd lat1 * trig.cosd lat2
  2.0 * EARTH_RADIUS * Real.arcsin (Real.sqrt (latH + temp * lonH))

/-- `geo.course`: initial bearing in degrees `[0, 360)` between two lat/lon
points relative to grid north. -/
noncomputable def course (lat1 lon1 lat2 lon2 : ℝ) : ℝ :=
  let delta_y := trig.sind (lon2 - lon1) * trig.cosd lat2
  let delta_x := trig.cosd lat1 * trig.sind lat2 -
    trig.sind lat1 * trig.cosd lat2 * trig.cosd (lon2 - lon1)
  fmod (trig.atan2d delta_y delta_x) 360.0

end geo

/-- `SensorPosition` of `particle_filter.py`. -/
structure SensorPosition where
  lat : ℝ
  lon : ℝ
  heading : ℝ

/-- `Measurement` of `particle_filter.py`: a detection as (range, bearing). -/
structure Measurement where
  surface_range : ℝ
  hor_angle : ℝ

/-- The state of a `Particle` of `particle_filter.py`: target hypothesis
(`surface_range`, `hor_angle`) plus the cached noise parameters. -/
structure Particle where
  surface_range : ℝ
  hor_angle : ℝ
  gps_noise : ℝ
  compass_noise : ℝ
  range_resolution : ℝ
  angular_resolution : ℝ

instance : Inhabited Particle := ⟨⟨0, 0, 0, 0, 0, 0⟩⟩

namespace Particle

/-- `Particle.__init__`: the two `random.random()` draws (values in `[0,1)`)
are passed explicitly as `r1`, `r2`. -/
noncomputable def init (fov_range fov_angle gps_noise compass_noise
    range_resolution angular_resolution r1 r2 : ℝ) : Particle :=
  { surface_range := r1 * fov_range
    hor_angle := r2 * fov_angle - fov_angle / 2
    gps_noise := gps_noise
    compass_noise := compass_noise
    range_resolution := range_resolution
    angular_resolution := angular_resolution }

/-- `Particle.move`: the six `random.gauss` noise draws are passed explicitly
as `g1 … g6` (already the sampled offsets added to the pose scalars). -/
noncomputable def move (p : Particle) (last_position curr_position : SensorPosition)
    (g1 g2 g3 g4 g5 g6 : ℝ) : Particle :=
  let last_lat := last_position.lat + g1
  let last_lon := last_position.lon + g2
  let last_heading := last_position.heading + g3
  let curr_lat := curr_position.lat + g4
  let curr_lon := curr_position.lon + g5
  let curr_heading := curr_position.heading + g6
  let course := geo.course last_lat last_lon curr_lat curr_lon
  let sensor_displacement := geo.distance last_lat last_lon curr_lat curr_lon
  let target_bearing := last_heading - p.hor_angle
  let e1 := sensor_displacement * trig.sind course
  let n1 := sensor_displacement * trig.cosd course
  let e2 := p.surface_range * trig.sind target_bearing
  let n2 := p.surface_range * trig.cosd target_bearing
  let ptb0 := trig.atan2d (e2 - e1) (n2 - n1)
  let predicted_target_bearing := if ptb0 < 0 then ptb0 + 360 else ptb0
  { p with
    hor_angle := curr_heading - predicted_target_bearing
    surface_range := Real.sqrt ((e2 - e1) ^ 2 + (n2 - n1) ^ 2) }

/-- `Particle._gaussian`: the probability-of-`x` helper exactly as written in
the source, where both divisions raise `ZeroDivisionError` (modelled `none`)
precisely when `sigma = 0`. Note the source places the `/ sqrt(2*pi*sigma^2)`
inside the argument of `exp`. -/
noncomputable def _gaussian (mu sigma x : ℝ) : Option ℝ :=
  if sigma = 0 then none
  else some (Real.exp ((-((mu - x) ^ 2) / (sigma ^ 2) / 2) /
    Real.sqrt (2 * Real.pi * (sigma ^ 2))))

/-- `Particle.measurement_prob`: product of the two `_gaussian` evaluations;
propagates a `ZeroDivisionError` from either factor. -/
noncomputable def measurement_prob (p : Particle) (measurement : Measurement) :
    Option ℝ :=
  match _gaussian measurement.surface_range p.range_resolution p.surface_range with
  | none => none
  | some a =>
    match _gaussian measurement.hor_angle p.angular_resolution p.hor_angle with
    | none => none
    | some b => some (a * b)

/-- The value `_gaussian mu sigma x` returns when it does not raise
(`sigma ≠ 0`), as a total function. -/
noncomputable def gaussianVal (mu sigma x : ℝ) : ℝ :=
  Real.exp ((-((mu - x) ^ 2) / (sigma ^ 2) / 2) /
    Real.sqrt (2 * Real.pi * (sigma ^ 2)))

/-- The value `measurement_prob` returns when neither resolution is zero,
as a total function. -/
noncomputable def measurementProbVal (p : Particle) (m : Measurement) : ℝ :=
  gaussianVal m.surface_range p.range_resolution p.surface_range *
    gaussianVal m.hor_angle p.angular_resolution p.hor_angle

end Particle

/-- The density the spec describes, written from the spec's words: a standard
1-D Gaussian density `exp(-(mu-x)^2 / (2*sigma^2)) / sqrt(2*pi*sigma^2)`.
Used only to compare the source's `_gaussian` against the spec. -/
noncomputable def specGaussianDensity (mu sigma x : ℝ) : ℝ :=
  Real.exp (-((mu - x) ^ 2) / (2 * sigma ^ 2)) / Real.sqrt (2 * Real.pi * sigma ^ 2)

/-- `get_weights`: one weight per particle, the running `max` (started at
`0.0`) of `measurement_prob` over all measurements; `none` when some
`measurement_prob` call raises. -/
noncomputable def get_weights (particles : List Particle)
    (measurements : List Measurement) : Option (List ℝ) :=
  particles.mapM (fun particle =>
    measurements.foldlM (fun weight measurement =>
      (particle.measurement_prob measurement).map (fun v => max weight v)) 0)

section Resampler

variable {α : Type} [LinearOrderedField α] {P : Type}

/-- The inner `while beta > weights[index]` loop of `resample_particles`,
with explicit fuel: returns the final `(beta, index)` pair, or `none` if the
guard is still true after `fuel` iterations of the body. -/
def spin (weights : List α) (num_particles : ℕ) :
    ℕ → α → ℕ → Option (α × ℕ)
  | 0, beta, index =>
    if weights.getD index 0 < beta then none else some (beta, index)
  | fuel + 1, beta, index =>
    if weights.getD index 0 < beta then
      spin weights num_particles fuel (beta - weights.getD index 0)
        ((index + 1) % num_particles)
    else some (beta, index)

/-- The `for i in range(num_particles)` loop of `resample_particles`:
`count` iterations remain, `draws` is the stream of `random.random()`
values (one consumed per iteration), and each iteration appends
`old_particles[index]`. -/
def resampleLoop [Inhabited P] (weights : List α) (num_particles : ℕ)
    (max_weight : α) (old_particles : List P) (fuel : ℕ) :
    ℕ → (ℕ → α) → α → ℕ → Option (List P)
  | 0, _, _, _ => some []
  | count + 1, draws, beta, index =>
    (spin weights num_particles fuel (beta + draws 0 * 2 * max_weight)
        index).bind (fun s =>
      (resampleLoop weights num_particles max_weight old_particles fuel
          count (fun k => draws (k + 1)) s.1 s.2).map
        (fun rest => old_particles.getD s.2 default :: rest))

/-- `resample_particles`: `r0` is the `random.random()` draw that seeds the
starting index and `draws` the stream of per-iteration draws; `max(weights)`
raises (`none`) on an empty list; the loop itself is `resampleLoop` with
explicit fuel for the inner `while`. -/
def resample_particles [FloorRing α] [Inhabited P] (fuel : ℕ) (old_particles : List P)
    (weights : List α) (r0 : α) (draws : ℕ → α) : Option (List P) :=
  let num_particles := old_particles.length
  match weights.max? with
  | none => none
  | some max_weight =>
    resampleLoop weights num_particles max_weight old_particles fuel
      num_particles draws 0 (Int.toNat ⌊r0 * (num_particles : α)⌋)

end Resampler

/-- A full motion-update step: the two observer poses together with the six
noise draws consumed by one call to `Particle.move`. -/
structure MoveStep where
  last_position : SensorPosition
  curr_position : SensorPosition
  g1 : ℝ
  g2 : ℝ
  g3 : ℝ
  g4 : ℝ
  g5 : ℝ
  g6 : ℝ

/-- A sequence of `Particle.move` calls applied in order. -/
noncomputable def applyMoves (p : Particle) (steps : List MoveStep) : Particle :=
  steps.foldl (fun q s =>
    q.move s.last_position s.curr_position s.g1 s.g2 s.g3 s.g4 s.g5 s.g6) p

/-- After one `move`, the range is a square root, hence nonnegative. -/
theorem move_surface_range_nonneg (p : Particle) (last curr : SensorPosition)
    (g1 g2 g3 g4 g5 g6 : ℝ) :
    0 ≤ (p.move last curr g1 g2 g3 g4 g5 g6).surface_range := by
  simp only [Particle.move]
  exact Real.sqrt_nonneg _

/-- C7: for every particle and every sequence of motion updates (any poses,
any noise draws), the particle's range remains nonnegative: after any number
of calls to `move`, `surface_range ≥ 0`. -/
theorem applyMoves_surface_range_nonneg (p : Particle) (steps : List MoveStep)
    (h : 0 ≤ p.surface_range) : 0 ≤ (applyMoves p steps).surface_range := by
  induction steps generalizing p with
  | nil => simpa [applyMoves] using h
  | cons s ss ih =>
    simp only [applyMoves, List.foldl_cons] at ih ⊢
    exact ih _ (move_surface_range_nonneg _ _ _ _ _ _ _ _ _)

/-- Witness for C7 at a concrete particle and a concrete motion step. -/
theorem applyMoves_surface_range_nonneg_witness :
    0 ≤ (applyMoves ⟨1, 0, 10, 1, 1, 2⟩
      [⟨⟨0, 0, 0⟩, ⟨3, 4, 90⟩, 0, 0, 0, 0, 0, 0⟩]).surface_range :=
  applyMoves_surface_range_nonneg ⟨1, 0, 10, 1, 1, 2⟩
    [⟨⟨0, 0, 0⟩, ⟨3, 4, 90⟩, 0, 0, 0, 0, 0, 0⟩] (by norm_num)

/-- C8: a particle constructed by `Particle.__init__` with positive
field-of-view parameters and uniform draws `r1, r2 ∈ [0,1)` has
`surface_range ∈ [0, fov_range)` and `hor_angle ∈ [-fov_angle/2, fov_angle/2)`. -/
theorem init_in_fov (fov_range fov_angle gps_noise compass_noise
    range_resolution angular_resolution r1 r2 : ℝ)
    (hfr : 0 < fov_range) (hfa : 0 < fov_angle)
    (h1 : 0 ≤ r1) (h1' : r1 < 1) (h2 : 0 ≤ r2) (h2' : r2 < 1) :
    0 ≤ (Particle.init fov_range fov_angle gps_noise compass_noise
        range_resolution angular_resolution r1 r2).surface_range ∧
    (Particle.init fov_range fov_angle gps_noise compass_noise
        range_resolution angular_resolution r1 r2).surface_range < fov_range ∧
    -(fov_angle / 2) ≤ (Particle.init fov_range fov_angle gps_noise compass_noise
        range_resolution angular_resolution r1 r2).hor_angle ∧
    (Particle.init fov_range fov_angle gps_noise compass_noise
        range_resolution angular_resolution r1 r2).hor_angle < fov_angle / 2 := by
  simp only [Particle.init]
  refine ⟨mul_nonneg h1 hfr.le, ?_, ?_, ?_⟩
  · nlinarith
  · nlinarith [mul_nonneg h2 hfa.le]
  · nlinarith

/-- Witness for C8 at the default configuration values. -/
theorem init_in_fov_witness :
    0 ≤ (Particle.init 500 90 10 1 (1/2) (3/2) (1/4) (3/4)).surface_range ∧
    (Particle.init 500 90 10 1 (1/2) (3/2) (1/4) (3/4)).surface_range < 500 ∧
    -((90:ℝ) / 2) ≤ (Particle.init 500 90 10 1 (1/2) (3/2) (1/4) (3/4)).hor_angle ∧
    (Particle.init 500 90 10 1 (1/2) (3/2) (1/4) (3/4)).hor_angle < 90 / 2 :=
  init_in_fov 500 90 10 1 (1/2) (3/2) (1/4) (3/4) (by norm_num) (by norm_num)
    (by norm_num) (by norm_num) (by norm_num) (by norm_num)

/-- C10: `measurement_prob` raises a division-by-zero error (modelled `none`)
exactly when one of the two resolutions is zero; under the precondition that
both are nonzero it returns a value. -/
theorem measurement_prob_none_iff (p : Particle) (m : Measurement) :
    p.measurement_prob m = none ↔
      (p.range_resolution = 0 ∨ p.angular_resolution = 0) := by
  by_cases h1 : p.range_resolution = 0 <;> by_cases h2 : p.angular_resolution = 0 <;>
    simp [Particle.measurement_prob, Particle._gaussian, h1, h2]

/-- C1: evaluating the source's likelihood at a particle that coincides
exactly with the observation, with both resolutions 1. The code returns
`exp(0) * exp(0) = 1`, while the product of two standard 1-D Gaussian
densities claimed by the spec evaluates to `(1/sqrt(2*pi))^2 ≠ 1`: the
source divides by `sqrt(2*pi*sigma^2)` inside the argument of `exp`. -/
theorem measurement_prob_ne_spec_density :
    Particle.measurement_prob ⟨0, 0, 10, 1, 1, 1⟩ ⟨0, 0⟩ = some 1 ∧
    specGaussianDensity 0 1 0 * specGaussianDensity 0 1 0 ≠ 1 := by
  constructor
  · have h1 : Particle._gaussian 0 1 0 = some 1 := by
      simp [Particle._gaussian]
    simp [Particle.measurement_prob, h1]
  · have hpi : (1 : ℝ) < 2 * Real.pi * 1 ^ 2 := by
      nlinarith [Real.pi_gt_three]
    have hs : (1 : ℝ) < Real.sqrt (2 * Real.pi * 1 ^ 2) :=
      (Real.lt_sqrt (by norm_num)).mpr (by nlinarith)
    have hd : specGaussianDensity 0 1 0 = 1 / Real.sqrt (2 * Real.pi * 1 ^ 2) := by
      simp [specGaussianDensity]
    rw [hd]
    have hpos : (0 : ℝ) < Real.sqrt (2 * Real.pi * 1 ^ 2) := by linarith
    have hlt : 1 / Real.sqrt (2 * Real.pi * 1 ^ 2) < 1 := by
      rw [div_lt_one hpos]; exact hs
    have hnn : (0 : ℝ) ≤ 1 / Real.sqrt (2 * Real.pi * 1 ^ 2) := by positivity
    nlinarith

/-- `sin` of zero degrees. -/
theorem sind_zero : trig.sind 0 = 0 := by
  simp [trig.sind]

/-- `cos` of zero degrees. -/
theorem cosd_zero : trig.cosd 0 = 1 := by
  simp [trig.cosd]

/-- Python's `atan2(0.0, 0.0)` is `0.0`. -/
theorem atan2_zero_zero : trig.atan2 0 0 = 0 := by
  simp [trig.atan2]

/-- On the positive `x` axis `atan2d` is zero. -/
theorem atan2d_zero_pos (x : ℝ) (hx : 0 < x) : trig.atan2d 0 x = 0 := by
  simp [trig.atan2d, trig.atan2, hx]

/-- The course between two identical lat/lon points evaluates to `0`. -/
theorem course_self : geo.course 0 0 0 0 = 0 := by
  simp [geo.course, trig.sind, trig.cosd, trig.atan2d, atan2_zero_zero, fmod]

/-- The haversine distance between two identical lat/lon points is `0`. -/
theorem distance_self : geo.distance 0 0 0 0 = 0 := by
  simp [geo.distance, radians]

/-- `Particle.__init__` with `fov_range = 200`, `fov_angle = 90` and both
uniform draws `1/2` produces the hypothesis (range 100, bearing 0). -/
theorem init_eval :
    Particle.init 200 90 0 0 1 1 (1/2) (1/2) = ⟨100, 0, 0, 0, 1, 1⟩ := by
  simp only [Particle.init]
  norm_num

/-- Concrete motion update: the observer stays at lat/lon `(0,0)` but turns
from heading `0` to heading `180` (all noise draws zero); the particle at
(range 100, bearing 0) gets bearing `180 - 0 = 180`. -/
theorem move_eval_hor_angle :
    (Particle.move ⟨100, 0, 0, 0, 1, 1⟩ ⟨0, 0, 0⟩ ⟨0, 0, 180⟩ 0 0 0 0 0 0).hor_angle
      = 180 := by
  norm_num [Particle.move, course_self, distance_self, sind_zero, cosd_zero,
    atan2d_zero_pos]

/-- C3 counterexample: a particle created inside the field of view
`[-90/2, +90/2)` whose bearing after a single `move` is `180`, far outside
that interval — `move` does not re-normalize the bearing into the
field-of-view convention. -/
theorem move_bearing_leaves_fov_interval :
    -((90:ℝ)/2) ≤ (Particle.init 200 90 0 0 1 1 (1/2) (1/2)).hor_angle ∧
    (Particle.init 200 90 0 0 1 1 (1/2) (1/2)).hor_angle < 90/2 ∧
    ((Particle.init 200 90 0 0 1 1 (1/2) (1/2)).move
      ⟨0, 0, 0⟩ ⟨0, 0, 180⟩ 0 0 0 0 0 0).hor_angle = 180 ∧
    ¬(-((90:ℝ)/2) ≤ 180 ∧ (180:ℝ) < 90/2) := by
  rw [init_eval]
  refine ⟨by norm_num, by norm_num, move_eval_hor_angle, by norm_num⟩

/-- The modelled `atan2` takes values in `(-pi, pi]`. -/
theorem atan2_bounds (y x : ℝ) :
    -Real.pi < trig.atan2 y x ∧ trig.atan2 y x ≤ Real.pi := by
  have hpi := Real.pi_pos
  unfold trig.atan2
  split_ifs with h1 h2 h3 h4 h5
  · exact ⟨by nlinarith [Real.neg_pi_div_two_lt_arctan (y/x)],
      by nlinarith [Real.arctan_lt_pi_div_two (y/x)]⟩
  · have hyx : y / x ≤ 0 := div_nonpos_iff.2 (Or.inl ⟨h3, h2.le⟩)
    have : Real.arctan (y / x) ≤ 0 := by
      have := Real.arctan_strictMono.monotone hyx
      rwa [Real.arctan_zero] at this
    exact ⟨by nlinarith [Real.neg_pi_div_two_lt_arctan (y/x)], by nlinarith⟩
  · have hy : y < 0 := lt_of_not_le h3
    have hyx : 0 < y / x := div_pos_of_neg_of_neg hy h2
    have : 0 < Real.arctan (y / x) := by
      have := Real.arctan_strictMono hyx
      rwa [Real.arctan_zero] at this
    exact ⟨by nlinarith, by nlinarith [Real.arctan_lt_pi_div_two (y/x)]⟩
  · exact ⟨by nlinarith, by nlinarith⟩
  · exact ⟨by nlinarith, by nlinarith⟩
  · exact ⟨by nlinarith, by nlinarith⟩

/-- The modelled `atan2d` takes values in `(-180, 180]`, as the source
comment in `Particle.move` documents. -/
theorem atan2d_bounds (y x : ℝ) :
    -180 < trig.atan2d y x ∧ trig.atan2d y x ≤ 180 := by
  obtain ⟨hl, hu⟩ := atan2_bounds y x
  have hpi := Real.pi_pos
  unfold trig.atan2d
  constructor
  · rw [lt_div_iff₀ hpi]
    nlinarith
  · rw [div_le_iff₀ hpi]
    nlinarith

/-- The bearing produced by `move` is the noised current heading minus a
value normalized into `[0, 360)`. -/
theorem normalized_sub_range (c a : ℝ) (hl : -180 < a) (hu : a ≤ 180) :
    c - 360 < c - (if a < 0 then a + 360 else a) ∧
    c - (if a < 0 then a + 360 else a) ≤ c := by
  split_ifs with h
  · constructor <;> linarith
  · constructor <;> linarith

/-- C3 amended: after `move`, the particle's bearing is the noised current
heading minus the `[0,360)`-normalized predicted target bearing, so it lies
in `(heading + g6 - 360, heading + g6]` — not, in general, in the
field-of-view interval the particle was initialized from. -/
theorem move_hor_angle_range (p : Particle) (last curr : SensorPosition)
    (g1 g2 g3 g4 g5 g6 : ℝ) :
    curr.heading + g6 - 360 < (p.move last curr g1 g2 g3 g4 g5 g6).hor_angle ∧
    (p.move last curr g1 g2 g3 g4 g5 g6).hor_angle ≤ curr.heading + g6 := by
  simp only [Particle.move]
  exact normalized_sub_range _ _ (atan2d_bounds _ _).1 (atan2d_bounds _ _).2

/-- C2 counterexample: with particles stored on a heap (addresses `0`, `1`)
and weights `[0, 1]`, the resampling wheel (start draw `0`, per-slot draws
`1/2`) emits the address `1` into both output slots — the Python code appends
`old_particles[index]` itself, not a copy. Mutating the output particle in
slot 0 (one `move` call, written back through its address) changes the state
observed through output slot 1 (and through the input list), refuting the
claim that output particles are independent value copies. -/
theorem resample_aliasing_counterexample :
    resample_particles 2 ([0, 1] : List ℕ) ([0, 1] : List ℝ) 0 (fun _ => 1/2)
      = some [1, 1] ∧
    (([⟨0, 0, 0, 0, 0, 0⟩, ⟨100, 0, 0, 0, 1, 1⟩] : List Particle).set 1
        ((([⟨0, 0, 0, 0, 0, 0⟩, ⟨100, 0, 0, 0, 1, 1⟩] : List Particle).getD 1
            default).move ⟨0, 0, 0⟩ ⟨0, 0, 180⟩ 0 0 0 0 0 0)).getD 1 default
      ≠ ([⟨0, 0, 0, 0, 0, 0⟩, ⟨100, 0, 0, 0, 1, 1⟩] : List Particle).getD 1 default := by
  constructor
  · have hmax : ([0, 1] : List ℝ).max? = some 1 := by
      simp [List.max?]
    have s1 : spin ([0, 1] : List ℝ) 2 2 1 0 = some (1, 1) := by
      norm_num [spin]
    have s2 : spin ([0, 1] : List ℝ) 2 2 2 1 = some (1, 1) := by
      norm_num [spin]
    norm_num [resample_particles, resampleLoop, hmax, s1, s2, List.getD]
    decide
  · intro h
    have h2 := congrArg Particle.hor_angle h
    simp only [List.set, List.getD_cons_succ, List.getD_cons_zero] at h2
    rw [move_eval_hor_angle] at h2
    norm_num at h2

section ResamplerTheory

variable {α : Type} [LinearOrderedField α] {P : Type} [Inhabited P]

/-- When the loop guard is false on entry, `spin` stops at once whatever the
fuel. -/
theorem spin_done (weights : List α) (n fuel : ℕ) (beta : α) (index : ℕ)
    (h : ¬ weights.getD index 0 < beta) :
    spin weights n fuel beta index = some (beta, index) := by
  cases fuel <;> simp only [spin, if_neg h]

/-- A successful `spin` run is unchanged by extra fuel. -/
theorem spin_mono (weights : List α) (n : ℕ) {fuel fuel' : ℕ} {beta : α}
    {index : ℕ} {r : α × ℕ}
    (h : spin weights n fuel beta index = some r) (hle : fuel ≤ fuel') :
    spin weights n fuel' beta index = some r := by
  induction fuel generalizing beta index fuel' with
  | zero =>
    by_cases hc : weights.getD index 0 < beta
    · simp only [spin, if_pos hc] at h
      exact Option.noConfusion h
    · rw [spin_done _ _ _ _ _ hc] at h ⊢
      exact h
  | succ f ih =>
    by_cases hc : weights.getD index 0 < beta
    · obtain ⟨f', rfl⟩ : ∃ f', fuel' = f' + 1 :=
        ⟨fuel' - 1, by omega⟩
      simp only [spin, if_pos hc] at h ⊢
      exact ih h (by omega)
    · rw [spin_done _ _ _ _ _ hc] at h ⊢
      exact h

/-- `spin` keeps the index below the population size. -/
theorem spin_index_lt (weights : List α) (n fuel : ℕ) (beta beta' : α)
    (index index' : ℕ) (hn : 0 < n) (hidx : index < n)
    (h : spin weights n fuel beta index = some (beta', index')) :
    index' < n := by
  induction fuel generalizing beta index with
  | zero =>
    by_cases hc : weights.getD index 0 < beta
    · simp only [spin, if_pos hc] at h
      exact Option.noConfusion h
    · rw [spin_done _ _ _ _ _ hc] at h
      injection Option.some_inj.mp h with hb hi
      exact hi ▸ hidx
  | succ f ih =>
    by_cases hc : weights.getD index 0 < beta
    · simp only [spin, if_pos hc] at h
      exact ih _ _ (Nat.mod_lt _ hn) h
    · rw [spin_done _ _ _ _ _ hc] at h
      injection Option.some_inj.mp h with hb hi
      exact hi ▸ hidx

/-- Termination of the wheel's inner loop: one full revolution of the index
subtracts the total weight from `beta`, so with the invariant
`beta ≤ k * total + (sum of the weights from the current index on)` the loop
stops within the measure `k * (n + 1) + (n - index)`. -/
theorem spin_total (weights : List α) (n : ℕ)
    (hw : ∀ w ∈ weights, 0 ≤ w) (hlen : weights.length = n) :
    ∀ (M k index : ℕ) (beta : α), k * (n + 1) + (n - index) ≤ M → index < n →
      beta ≤ (k : α) * weights.sum + (weights.drop index).sum →
      ∃ fuel r, spin weights n fuel beta index = some r := by
  intro M
  induction M with
  | zero =>
    intro k index beta hM hidx hbeta
    generalize k * (n + 1) = t at hM
    omega
  | succ M ih =>
    intro k index beta hM hidx hbeta
    by_cases hc : weights.getD index 0 < beta
    · have hidxw : index < weights.length := hlen ▸ hidx
      have hsplit : (weights.drop index).sum =
          weights.getD index 0 + (weights.drop (index + 1)).sum := by
        rw [List.drop_eq_getElem_cons hidxw, List.sum_cons,
          List.getD_eq_getElem weights 0 hidxw]
      rcases Nat.lt_or_ge (index + 1) n with hlt | hge
      · have hb' : beta - weights.getD index 0 ≤
            (k : α) * weights.sum + (weights.drop (index + 1)).sum := by
          rw [hsplit] at hbeta
          linarith
        have hM' : k * (n + 1) + (n - (index + 1)) ≤ M := by
          generalize k * (n + 1) = t at hM ⊢
          omega
        obtain ⟨fuel, r, hr⟩ :=
          ih k (index + 1) (beta - weights.getD index 0) hM' hlt hb'
        refine ⟨fuel + 1, r, ?_⟩
        simp only [spin, if_pos hc]
        rw [Nat.mod_eq_of_lt hlt]
        exact hr
      · have hn1 : index + 1 = n := by omega
        have hmod : (index + 1) % n = 0 := by
          rw [hn1]
          exact Nat.mod_self n
        have hdrop : (weights.drop (index + 1)).sum = 0 := by
          rw [hn1, ← hlen, List.drop_length, List.sum_nil]
        cases k with
        | zero =>
          have hble : beta - weights.getD index 0 ≤ 0 := by
            rw [hsplit, hdrop] at hbeta
            push_cast at hbeta
            linarith
          have hg0 : 0 ≤ weights.getD 0 0 := by
            by_cases h00 : 0 < weights.length
            · rw [List.getD_eq_getElem weights 0 h00]
              exact hw _ (List.getElem_mem h00)
            · rw [List.getD_eq_default weights 0 (by omega)]
          have h0 : ¬ weights.getD 0 0 < beta - weights.getD index 0 := by
            linarith
          refine ⟨1, (beta - weights.getD index 0, 0), ?_⟩
          simp only [spin, if_pos hc, hmod]
          rw [if_neg h0]
        | succ k' =>
          have hb' : beta - weights.getD index 0 ≤
              (k' : α) * weights.sum + (weights.drop 0).sum := by
            rw [hsplit, hdrop] at hbeta
            simp only [List.drop_zero]
            push_cast at hbeta
            linarith
          have hM' : k' * (n + 1) + (n - 0) ≤ M := by
            have hexp : (k' + 1) * (n + 1) = k' * (n + 1) + (n + 1) := by ring
            rw [hexp] at hM
            generalize k' * (n + 1) = t at hM ⊢
            omega
          obtain ⟨fuel, r, hr⟩ :=
            ih k' 0 (beta - weights.getD index 0) hM' (by omega) hb'
          refine ⟨fuel + 1, r, ?_⟩
          simp only [spin, if_pos hc, hmod]
          exact hr
    · exact ⟨0, (beta, index), spin_done _ _ _ _ _ hc⟩

/-- A successful run of the resampling `for` loop is unchanged by extra
fuel for the inner `while` loop. -/
theorem resampleLoop_mono {weights : List α} {n : ℕ} {maxw : α} {old : List P}
    {fuel fuel' : ℕ} {count : ℕ} {draws : ℕ → α} {beta : α} {index : ℕ}
    {res : List P}
    (h : resampleLoop weights n maxw old fuel count draws beta index = some res)
    (hle : fuel ≤ fuel') :
    resampleLoop weights n maxw old fuel' count draws beta index = some res := by
  induction count generalizing draws beta index res with
  | zero => simpa [resampleLoop] using h
  | succ c ih =>
    simp only [resampleLoop] at h ⊢
    rcases hs : spin weights n fuel (beta + draws 0 * 2 * maxw) index with - | s
    · rw [hs] at h
      exact Option.noConfusion h
    · rw [hs] at h
      rw [spin_mono _ _ hs hle]
      simp only [Option.some_bind] at h ⊢
      rcases hr : resampleLoop weights n maxw old fuel c
          (fun k => draws (k + 1)) s.1 s.2 with - | rest
      · rw [hr] at h
        exact Option.noConfusion h
      · rw [hr] at h
        rw [ih hr]
        exact h

/-- A successful run of the resampling loop emits exactly one particle per
iteration. -/
theorem resampleLoop_length {weights : List α} {n : ℕ} {maxw : α}
    {old : List P} {fuel count : ℕ} {draws : ℕ → α} {beta : α} {index : ℕ}
    {res : List P}
    (h : resampleLoop weights n maxw old fuel count draws beta index = some res) :
    res.length = count := by
  induction count generalizing draws beta index res with
  | zero =>
    simp only [resampleLoop, Option.some_inj] at h
    simp [← h]
  | succ c ih =>
    simp only [resampleLoop] at h
    rcases hs : spin weights n fuel (beta + draws 0 * 2 * maxw) index with - | s
    · rw [hs] at h
      exact Option.noConfusion h
    · rw [hs] at h
      simp only [Option.some_bind] at h
      rcases hr : resampleLoop weights n maxw old fuel c
          (fun k => draws (k + 1)) s.1 s.2 with - | rest
      · rw [hr] at h
        exact Option.noConfusion h
      · rw [hr] at h
        simp only [Option.map_some', Option.some_inj] at h
        rw [← h]
        simp [ih hr]

/-- Every particle emitted by a successful run of the resampling loop is an
element (a shared reference) of the input population. -/
theorem resampleLoop_subset {weights : List α} {n : ℕ} {maxw : α}
    {old : List P} {fuel count : ℕ} {draws : ℕ → α} {beta : α} {index : ℕ}
    {res : List P} (hn : 0 < n) (hold : old.length = n) (hidx : index < n)
    (h : resampleLoop weights n maxw old fuel count draws beta index = some res) :
    res ⊆ old := by
  induction count generalizing draws beta index res with
  | zero =>
    simp only [resampleLoop, Option.some_inj] at h
    rw [← h]
    exact List.nil_subset old
  | succ c ih =>
    simp only [resampleLoop] at h
    rcases hs : spin weights n fuel (beta + draws 0 * 2 * maxw) index with - | s
    · rw [hs] at h
      exact Option.noConfusion h
    · rw [hs] at h
      simp only [Option.some_bind] at h
      rcases hr : resampleLoop weights n maxw old fuel c
          (fun k => draws (k + 1)) s.1 s.2 with - | rest
      · rw [hr] at h
        exact Option.noConfusion h
      · rw [hr] at h
        simp only [Option.map_some', Option.some_inj] at h
        have hs2 : s.2 < n := spin_index_lt weights n fuel _ s.1 index s.2 hn hidx
          (by rw [hs])
        rw [← h, List.cons_subset]
        constructor
        · have hlt : s.2 < old.length := by omega
          rw [List.getD_eq_getElem old default hlt]
          exact List.getElem_mem hlt
        · exact ih hs2 hr

/-- Existence of enough fuel for the whole resampling loop when the total
weight is positive. -/
theorem resampleLoop_total [Archimedean α] {weights : List α} {n : ℕ}
    (maxw : α) (old : List P) (hw : ∀ w ∈ weights, 0 ≤ w)
    (hlen : weights.length = n) (hT : 0 < weights.sum) :
    ∀ (count index : ℕ) (draws : ℕ → α) (beta : α), index < n →
      ∃ fuel res,
        resampleLoop weights n maxw old fuel count draws beta index = some res := by
  intro count
  induction count with
  | zero => exact fun index draws beta _ => ⟨0, [], rfl⟩
  | succ c ih =>
    intro index draws beta hidx
    set beta1 := beta + draws 0 * 2 * maxw with hbeta1
    obtain ⟨k, hk⟩ := Archimedean.arch beta1 hT
    have hd : 0 ≤ (weights.drop index).sum :=
      List.sum_nonneg (fun x hx => hw x (List.drop_subset _ _ hx))
    have hk' : beta1 ≤ (k : α) * weights.sum + (weights.drop index).sum := by
      rw [nsmul_eq_mul] at hk
      linarith
    obtain ⟨f1, r, hr⟩ := spin_total weights n hw hlen
      (k * (n + 1) + (n - index)) k index beta1 le_rfl hidx hk'
    have hr2 : r.2 < n := spin_index_lt weights n f1 beta1 r.1 index r.2
      (by omega) hidx (by rw [hr])
    obtain ⟨f2, res, hres⟩ := ih r.2 (fun j => draws (j + 1)) r.1 hr2
    refine ⟨max f1 f2, old.getD r.2 default :: res, ?_⟩
    simp only [resampleLoop]
    rw [spin_mono _ _ hr (le_max_left f1 f2)]
    simp only [Option.some_bind]
    rw [resampleLoop_mono hres (le_max_right f1 f2)]
    simp only [Option.map_some']

/-- Out-of-range or in-range, every entry of an all-zero weight list reads
as `0`. -/
theorem getD_zero_of_allzero {weights : List α} (hz : ∀ w ∈ weights, w = 0)
    (j : ℕ) : weights.getD j 0 = 0 := by
  by_cases hj : j < weights.length
  · rw [List.getD_eq_getElem weights 0 hj]
    exact hz _ (List.getElem_mem hj)
  · exact List.getD_eq_default weights 0 (by omega)

/-- Folding `max` from `0` over an all-zero list gives `0`. -/
theorem foldl_max_allzero {l : List α} (hz : ∀ w ∈ l, w = 0) :
    l.foldl max 0 = 0 := by
  induction l with
  | nil => rfl
  | cons b bs ih =>
    have hb : b = 0 := hz b (by simp)
    have hz' : ∀ w ∈ bs, w = 0 := fun w hw => hz w (by simp [hw])
    simp [List.foldl_cons, hb, ih hz']

/-- `max(weights)` of a nonempty all-zero list is `0`. -/
theorem max?_allzero {weights : List α} (hne : weights ≠ [])
    (hz : ∀ w ∈ weights, w = 0) : weights.max? = some 0 := by
  cases weights with
  | nil => exact absurd rfl hne
  | cons a as =>
    have ha : a = 0 := hz a (by simp)
    have hz' : ∀ w ∈ as, w = 0 := fun w hw => hz w (by simp [hw])
    simp only [List.max?_cons']
    subst ha
    rw [foldl_max_allzero hz']

/-- With all weights zero the increment is zero, `beta` stays `0`, the wheel
never advances, and every iteration emits the particle at the starting
index. -/
theorem resampleLoop_allzero {weights : List α} {n : ℕ} {old : List P}
    (hz : ∀ w ∈ weights, w = 0) (fuel : ℕ) :
    ∀ (count : ℕ) (draws : ℕ → α) (index : ℕ),
      resampleLoop weights n 0 old fuel count draws 0 index =
        some (List.replicate count (old.getD index default)) := by
  intro count
  induction count with
  | zero => intro draws index; simp [resampleLoop]
  | succ c ih =>
    intro draws index
    simp only [resampleLoop]
    have hb : (0 : α) + draws 0 * 2 * 0 = 0 := by ring
    rw [hb, spin_done _ _ _ _ _ (by rw [getD_zero_of_allzero hz]; exact lt_irrefl 0)]
    simp only [Option.some_bind]
    rw [ih (fun k => draws (k + 1))]
    simp [List.replicate_succ]

/-- The starting index `int(random() * num_particles)` lies in `[0, n)` when
the seed draw lies in `[0, 1)`. -/
theorem start_index_lt [FloorRing α] {n : ℕ} (hn : 0 < n) {r0 : α}
    (h0 : 0 ≤ r0) (h1 : r0 < 1) : Int.toNat ⌊r0 * (n : α)⌋ < n := by
  have hn' : (0 : α) < n := by exact_mod_cast hn
  have hfl : 0 ≤ ⌊r0 * (n : α)⌋ := Int.floor_nonneg.mpr (by positivity)
  rw [Int.toNat_lt hfl]
  have hlt : r0 * (n : α) < (n : α) := by nlinarith
  exact Int.floor_lt.mpr (by exact_mod_cast hlt)

/-- Nonnegative entries summing to zero are all zero. -/
theorem allzero_of_sum_zero {l : List α} (hw : ∀ w ∈ l, 0 ≤ w)
    (hs : l.sum = 0) : ∀ w ∈ l, w = 0 := by
  induction l with
  | nil => simp
  | cons a as ih =>
    simp only [List.sum_cons] at hs
    have ha : 0 ≤ a := hw a (by simp)
    have has : 0 ≤ as.sum :=
      List.sum_nonneg (fun x hx => hw x (by simp [hx]))
    intro w hwmem
    rcases List.mem_cons.mp hwmem with rfl | hmem
    · linarith
    · exact ih (fun x hx => hw x (by simp [hx])) (by linarith) w hmem

/-- C4: when every weight is zero, `resample_particles` returns `N` repeated
copies of the single input particle selected by the wheel's random starting
index `int(r0 * N)`, for any fuel and any draw stream. -/
theorem resample_particles_allzero [FloorRing α] (fuel : ℕ) (old : List P)
    (weights : List α) (r0 : α) (draws : ℕ → α)
    (hne : old ≠ []) (hlen : weights.length = old.length)
    (hz : ∀ w ∈ weights, w = 0) (hr0 : 0 ≤ r0) (hr1 : r0 < 1) :
    resample_particles fuel old weights r0 draws =
      some (List.replicate old.length
        (old.getD (Int.toNat ⌊r0 * (old.length : α)⌋) default)) ∧
    old.getD (Int.toNat ⌊r0 * (old.length : α)⌋) default ∈ old := by
  have hn : 0 < old.length := List.length_pos.mpr hne
  have hwne : weights ≠ [] := by
    intro h
    rw [h] at hlen
    simp at hlen
    omega
  have hi : Int.toNat ⌊r0 * ((old.length : ℕ) : α)⌋ < old.length :=
    start_index_lt hn hr0 hr1
  constructor
  · simp only [resample_particles, max?_allzero hwne hz]
    exact resampleLoop_allzero hz fuel old.length draws _
  · rw [List.getD_eq_getElem old default hi]
    exact List.getElem_mem hi

/-- C9: for a nonempty population, parallel nonnegative weights and a seed
draw in `[0,1)`, the resampling procedure terminates: some fuel makes every
inner `while` loop finish, and `resample_particles` returns a value. -/
theorem resample_particles_terminates [FloorRing α] [Archimedean α]
    (old : List P) (weights : List α) (r0 : α) (draws : ℕ → α)
    (hne : old ≠ []) (hlen : weights.length = old.length)
    (hw : ∀ w ∈ weights, 0 ≤ w) (hr0 : 0 ≤ r0) (hr1 : r0 < 1) :
    ∃ fuel res, resample_particles fuel old weights r0 draws = some res := by
  have hn : 0 < old.length := List.length_pos.mpr hne
  have hi : Int.toNat ⌊r0 * ((old.length : ℕ) : α)⌋ < old.length :=
    start_index_lt hn hr0 hr1
  by_cases hT : weights.sum = 0
  · have hz : ∀ w ∈ weights, w = 0 := allzero_of_sum_zero hw hT
    have hwne : weights ≠ [] := by
      intro h
      rw [h] at hlen
      simp at hlen
      omega
    refine ⟨0, List.replicate old.length
      (old.getD (Int.toNat ⌊r0 * ((old.length : ℕ) : α)⌋) default), ?_⟩
    simp only [resample_particles, max?_allzero hwne hz]
    exact resampleLoop_allzero hz 0 old.length draws _
  · have hTpos : 0 < weights.sum :=
      lt_of_le_of_ne (List.sum_nonneg hw) (Ne.symm hT)
    obtain ⟨m, hm⟩ : ∃ m, weights.max? = some m := by
      cases weights with
      | nil =>
        simp at hlen
        omega
      | cons a as => exact ⟨as.foldl max a, List.max?_cons'⟩
    obtain ⟨fuel, res, hres⟩ := resampleLoop_total m old
      hw hlen hTpos old.length (Int.toNat ⌊r0 * ((old.length : ℕ) : α)⌋) draws 0 hi
    refine ⟨fuel, res, ?_⟩
    simp only [resample_particles, hm]
    exact hres

/-- C6: for a nonempty population and parallel nonnegative weights with at
least one positive entry, `resample_particles` returns a population of
exactly the input's size. -/
theorem resample_particles_length_eq [FloorRing α] [Archimedean α]
    (old : List P) (weights : List α) (r0 : α) (draws : ℕ → α)
    (hne : old ≠ []) (hlen : weights.length = old.length)
    (hw : ∀ w ∈ weights, 0 ≤ w) (hpos : ∃ w ∈ weights, 0 < w)
    (hr0 : 0 ≤ r0) (hr1 : r0 < 1) :
    ∃ fuel res, resample_particles fuel old weights r0 draws = some res ∧
      res.length = old.length := by
  have hn : 0 < old.length := List.length_pos.mpr hne
  have hi : Int.toNat ⌊r0 * ((old.length : ℕ) : α)⌋ < old.length :=
    start_index_lt hn hr0 hr1
  obtain ⟨w, hwmem, hwpos⟩ := hpos
  have hTpos : 0 < weights.sum :=
    lt_of_lt_of_le hwpos (List.single_le_sum hw w hwmem)
  obtain ⟨m, hm⟩ : ∃ m, weights.max? = some m := by
    cases weights with
    | nil => simp at hwmem
    | cons a as => exact ⟨as.foldl max a, List.max?_cons'⟩
  obtain ⟨fuel, res, hres⟩ := resampleLoop_total m old
    hw hlen hTpos old.length (Int.toNat ⌊r0 * ((old.length : ℕ) : α)⌋) draws 0 hi
  refine ⟨fuel, res, ?_, ?_⟩
  · simp only [resample_particles, hm]
    exact hres
  · rw [resampleLoop_length hres]

/-- C2 amended: the population returned by `resample_particles` consists of
the drawn input particles themselves — every output element is (a reference
to) an element of the input list, not an independent copy. -/
theorem resample_particles_subset [FloorRing α]
    (fuel : ℕ) (old : List P) (weights : List α) (r0 : α) (draws : ℕ → α)
    (res : List P) (hne : old ≠ []) (hr0 : 0 ≤ r0) (hr1 : r0 < 1)
    (h : resample_particles fuel old weights r0 draws = some res) :
    res ⊆ old := by
  have hn : 0 < old.length := List.length_pos.mpr hne
  have hi : Int.toNat ⌊r0 * ((old.length : ℕ) : α)⌋ < old.length :=
    start_index_lt hn hr0 hr1
  simp only [resample_particles] at h
  rcases hm : weights.max? with - | m
  · rw [hm] at h
    exact Option.noConfusion h
  · rw [hm] at h
    exact resampleLoop_subset hn rfl hi h

end ResamplerTheory

/-- Witness for C4 over `ℚ`: two particles, both weights zero, seed draw `0`;
the population collapses onto the particle at index `0`. -/
theorem resample_particles_allzero_witness :
    resample_particles 3 ([7, 8] : List ℕ) ([0, 0] : List ℚ) 0 (fun _ => 1) =
      some (List.replicate ([7, 8] : List ℕ).length
        (([7, 8] : List ℕ).getD
          (Int.toNat ⌊(0 : ℚ) * ((([7, 8] : List ℕ).length : ℕ) : ℚ)⌋) default)) ∧
    ([7, 8] : List ℕ).getD
      (Int.toNat ⌊(0 : ℚ) * ((([7, 8] : List ℕ).length : ℕ) : ℚ)⌋) default
      ∈ ([7, 8] : List ℕ) :=
  resample_particles_allzero 3 [7, 8] [0, 0] 0 (fun _ => 1) (by simp) rfl
    (by decide) (by decide) (by decide)

/-- Witness for C9 over `ℚ`: two particles with weights `[0, 1]`, seed draw
`0`, per-iteration draws `1`. -/
theorem resample_particles_terminates_witness :
    ∃ fuel res,
      resample_particles fuel ([5, 6] : List ℕ) ([0, 1] : List ℚ) 0
        (fun _ => 1) = some res :=
  resample_particles_terminates [5, 6] [0, 1] 0 (fun _ => 1) (by simp) rfl
    (by decide) (by decide) (by decide)

/-- Witness for C6 over `ℚ`: same instance as the C9 witness, with the
positive-entry hypothesis discharged, yielding a population of size 2. -/
theorem resample_particles_length_eq_witness :
    ∃ fuel res,
      resample_particles fuel ([5, 6] : List ℕ) ([0, 1] : List ℚ) 0
        (fun _ => 1) = some res ∧ res.length = ([5, 6] : List ℕ).length :=
  resample_particles_length_eq [5, 6] [0, 1] 0 (fun _ => 1) (by simp) rfl
    (by decide) (by decide) (by decide) (by decide)

/-- Witness for the amended C2: the concrete resampling run of the
counterexample produces a population whose members are all elements of the
input population. -/
theorem resample_particles_subset_witness :
    ([1, 1] : List ℕ) ⊆ ([0, 1] : List ℕ) := by
  have hmax : ([0, 1] : List ℝ).max? = some 1 := by
    simp [List.max?]
  have s1 : spin ([0, 1] : List ℝ) 2 2 1 0 = some (1, 1) := by
    norm_num [spin]
  have s2 : spin ([0, 1] : List ℝ) 2 2 2 1 = some (1, 1) := by
    norm_num [spin]
  have h : resample_particles 2 ([0, 1] : List ℕ) ([0, 1] : List ℝ) 0
      (fun _ => 1/2) = some [1, 1] := by
    norm_num [resample_particles, resampleLoop, hmax, s1, s2, List.getD]
    decide
  exact resample_particles_subset 2 [0, 1] [0, 1] 0 (fun _ => 1/2) [1, 1]
    (by simp) (by norm_num) (by norm_num) h

/-- With both resolutions nonzero, `measurement_prob` returns its value as a
total function. -/
theorem measurement_prob_some (p : Particle) (m : Measurement)
    (h1 : p.range_resolution ≠ 0) (h2 : p.angular_resolution ≠ 0) :
    p.measurement_prob m = some (p.measurementProbVal m) := by
  simp [Particle.measurement_prob, Particle._gaussian, h1, h2,
    Particle.measurementProbVal, Particle.gaussianVal]

/-- The likelihood the source computes is strictly positive (a product of two
exponentials). -/
theorem measurementProbVal_pos (p : Particle) (m : Measurement) :
    0 < p.measurementProbVal m :=
  mul_pos (Real.exp_pos _) (Real.exp_pos _)

/-- The per-particle inner loop of `get_weights`, rewritten as a pure fold
when no `measurement_prob` call raises. -/
theorem foldlM_weights_eq (p : Particle) (ms : List Measurement)
    (h1 : p.range_resolution ≠ 0) (h2 : p.angular_resolution ≠ 0) :
    ∀ w0 : ℝ,
      ms.foldlM (fun w m => (p.measurement_prob m).map (fun v => max w v)) w0 =
        some (ms.foldl (fun w m => max w (p.measurementProbVal m)) w0) := by
  induction ms with
  | nil => intro w0; rfl
  | cons m ms ih =>
    intro w0
    rw [List.foldlM_cons]
    simp only [measurement_prob_some p m h1 h2, Option.map_some']
    rw [List.foldl_cons]
    simpa using ih (max w0 (p.measurementProbVal m))

/-- `get_weights` succeeds and computes, per particle, the fold of `max`
over the measurement likelihoods started at `0`. -/
theorem get_weights_eq (particles : List Particle) (ms : List Measurement)
    (h : ∀ p ∈ particles, p.range_resolution ≠ 0 ∧ p.angular_resolution ≠ 0) :
    get_weights particles ms = some (particles.map
      (fun p => ms.foldl (fun w m => max w (p.measurementProbVal m)) 0)) := by
  induction particles with
  | nil => rfl
  | cons p ps ih =>
    have hp := h p (by simp)
    simp only [get_weights, List.mapM_cons] at ih ⊢
    rw [foldlM_weights_eq p ms hp.1 hp.2 0]
    rw [ih (fun q hq => h q (by simp [hq]))]
    simp

/-- The fold of `max` dominates its seed and every folded value. -/
theorem foldl_max_le {β : Type} (g : β → ℝ) (l : List β) :
    ∀ w0 : ℝ, w0 ≤ l.foldl (fun w b => max w (g b)) w0 ∧
      ∀ b ∈ l, g b ≤ l.foldl (fun w b => max w (g b)) w0 := by
  induction l with
  | nil => simp
  | cons b bs ih =>
    intro w0
    constructor
    · simp only [List.foldl_cons]
      exact le_trans (le_max_left _ _) (ih _).1
    · intro c hc
      rcases List.mem_cons.mp hc with rfl | hmem
      · simp only [List.foldl_cons]
        exact le_trans (le_max_right _ _) (ih _).1
      · simp only [List.foldl_cons]
        exact (ih _).2 c hmem

/-- The fold of `max` is its seed or one of the folded values. -/
theorem foldl_max_eq_init_or_mem {β : Type} (g : β → ℝ) (l : List β) :
    ∀ w0 : ℝ, l.foldl (fun w b => max w (g b)) w0 = w0 ∨
      ∃ b ∈ l, l.foldl (fun w b => max w (g b)) w0 = g b := by
  induction l with
  | nil => intro w0; exact Or.inl rfl
  | cons b bs ih =>
    intro w0
    simp only [List.foldl_cons]
    rcases ih (max w0 (g b)) with h | ⟨c, hc, hcv⟩
    · rcases max_choice w0 (g b) with hm | hm
      · exact Or.inl (h.trans hm)
      · exact Or.inr ⟨b, by simp, h.trans hm⟩
    · exact Or.inr ⟨c, by simp [hc], hcv⟩

/-- C5: when no particle has a zero resolution, `get_weights` returns a
weight vector parallel to the particle list whose `i`-th entry is the
maximum over all observations of the `i`-th particle's `measurement_prob`
value — an upper bound on every likelihood, attained at some observation —
and is `0` whenever the observation list is empty. -/
theorem get_weights_spec (particles : List Particle)
    (measurements : List Measurement)
    (h : ∀ p ∈ particles, p.range_resolution ≠ 0 ∧ p.angular_resolution ≠ 0) :
    ∃ ws, get_weights particles measurements = some ws ∧
      ws.length = particles.length ∧
      ∀ i, i < particles.length →
        ((∀ m ∈ measurements,
            Particle.measurementProbVal (particles.getD i default) m ≤
              ws.getD i 0) ∧
          (measurements = [] → ws.getD i 0 = 0) ∧
          (measurements ≠ [] → ∃ m ∈ measurements,
            ws.getD i 0 =
              Particle.measurementProbVal (particles.getD i default) m)) := by
  refine ⟨particles.map
      (fun p => measurements.foldl (fun w m => max w (p.measurementProbVal m)) 0),
    get_weights_eq particles measurements h, by simp, ?_⟩
  intro i hi
  have hlen' : i < (particles.map
      (fun p => measurements.foldl
        (fun w m => max w (p.measurementProbVal m)) 0)).length := by
    simp [hi]
  rw [List.getD_eq_getElem _ 0 hlen', List.getElem_map,
    ← List.getD_eq_getElem particles default hi]
  refine ⟨fun m hm => (foldl_max_le _ measurements 0).2 m hm,
    fun hemp => by simp [hemp], fun hne => ?_⟩
  rcases foldl_max_eq_init_or_mem
      (Particle.measurementProbVal (particles.getD i default))
      measurements 0 with h0 | hex
  · obtain ⟨m, hm⟩ := List.exists_mem_of_ne_nil measurements hne
    have hle := (foldl_max_le
      (Particle.measurementProbVal (particles.getD i default))
      measurements 0).2 m hm
    have hpos := measurementProbVal_pos (particles.getD i default) m
    rw [h0] at hle
    linarith
  · exact hex

/-- Witness for C5: a single particle with unit resolutions and an empty
observation list receives the weight vector `[0]`. -/
theorem get_weights_spec_witness :
    ∃ ws, get_weights [⟨0, 0, 10, 1, 1, 1⟩] [] = some ws ∧
      ws.length = ([⟨0, 0, 10, 1, 1, 1⟩] : List Particle).length ∧
      ∀ i, i < ([⟨0, 0, 10, 1, 1, 1⟩] : List Particle).length →
        ((∀ m ∈ ([] : List Measurement),
            Particle.measurementProbVal
              (([⟨0, 0, 10, 1, 1, 1⟩] : List Particle).getD i default) m ≤
              ws.getD i 0) ∧
          (([] : List Measurement) = [] → ws.getD i 0 = 0) ∧
          (([] : List Measurement) ≠ [] → ∃ m ∈ ([] : List Measurement),
            ws.getD i 0 = Particle.measurementProbVal
              (([⟨0, 0, 10, 1, 1, 1⟩] : List Particle).getD i default) m)) :=
  get_weights_spec [⟨0, 0, 10, 1, 1, 1⟩] [] (by norm_num)
